import Mathlib

/-!
Verification of the gock structured-concurrency package.

The development shallowly embeds the package's error data model and its
operations (`AddConcurrentError`, `ConcurrentErrors.Unwrap`, `AnyIs`,
`AnyAs`, `ConcurrentErrors.Is`, `capturedPanic.Unwrap`) as executable Lean
functions, and the task bundle (`Bundle`'s `g` and `wait` closures) as a
small-step transition relation over an explicit state.
-/

/--
Model of Go `error` values as used by the package.

* `base id` — a comparable leaf error with no `Unwrap` method, such as the
  pointer returned by `errors.New` (`id` stands for the pointer identity).
* `wrap id inner` — a comparable error whose `Unwrap() error` method returns
  `inner`, such as the `*wrapError` produced by `fmt.Errorf("...: %w", inner)`.
* `concurrent errs` — a `ConcurrentErrors{Errors: errs}` value.  Its dynamic
  type holds a slice, so it is not comparable by `reflect`.
* `nonComparable id` — some other error whose dynamic type is not comparable
  (e.g. a struct holding a slice) and that has no `Unwrap` method.
* `capturedErr inner stack` — a `capturedPanic` whose recovered value `p` is
  the error `inner`; `stack` is the captured `debug.Stack()` snapshot.
  The struct holds a `[]byte`, so it is not comparable.
* `capturedOther id stack` — a `capturedPanic` whose recovered value is not
  an error.
-/
inductive GoErr : Type where
  | base (id : Nat)
  | wrap (id : Nat) (inner : GoErr)
  | concurrent (errs : List GoErr)
  | nonComparable (id : Nat)
  | capturedErr (inner : GoErr) (stack : Nat)
  | capturedOther (id : Nat) (stack : Nat)
deriving Repr

mutual
/-- Decidable structural equality on `GoErr`; on comparable values it models
Go interface equality (`to == err`). -/
def decEqGoErr : (a b : GoErr) → Decidable (a = b)
  | .base i, .base j =>
    match Nat.decEq i j with
    | .isTrue h => .isTrue (by rw [h])
    | .isFalse h => .isFalse fun hh => h (by cases hh; rfl)
  | .wrap i a, .wrap j b =>
    match Nat.decEq i j, decEqGoErr a b with
    | .isTrue h1, .isTrue h2 => .isTrue (by rw [h1, h2])
    | .isFalse h1, _ => .isFalse fun hh => h1 (by cases hh; rfl)
    | _, .isFalse h2 => .isFalse fun hh => h2 (by cases hh; rfl)
  | .concurrent es, .concurrent fs =>
    match decEqGoErrList es fs with
    | .isTrue h => .isTrue (by rw [h])
    | .isFalse h => .isFalse fun hh => h (by cases hh; rfl)
  | .nonComparable i, .nonComparable j =>
    match Nat.decEq i j with
    | .isTrue h => .isTrue (by rw [h])
    | .isFalse h => .isFalse fun hh => h (by cases hh; rfl)
  | .capturedErr a s, .capturedErr b t =>
    match decEqGoErr a b, Nat.decEq s t with
    | .isTrue h1, .isTrue h2 => .isTrue (by rw [h1, h2])
    | .isFalse h1, _ => .isFalse fun hh => h1 (by cases hh; rfl)
    | _, .isFalse h2 => .isFalse fun hh => h2 (by cases hh; rfl)
  | .capturedOther i s, .capturedOther j t =>
    match Nat.decEq i j, Nat.decEq s t with
    | .isTrue h1, .isTrue h2 => .isTrue (by rw [h1, h2])
    | .isFalse h1, _ => .isFalse fun hh => h1 (by cases hh; rfl)
    | _, .isFalse h2 => .isFalse fun hh => h2 (by cases hh; rfl)
  | .base _, .wrap _ _ => .isFalse nofun
  | .base _, .concurrent _ => .isFalse nofun
  | .base _, .nonComparable _ => .isFalse nofun
  | .base _, .capturedErr _ _ => .isFalse nofun
  | .base _, .capturedOther _ _ => .isFalse nofun
  | .wrap _ _, .base _ => .isFalse nofun
  | .wrap _ _, .concurrent _ => .isFalse nofun
  | .wrap _ _, .nonComparable _ => .isFalse nofun
  | .wrap _ _, .capturedErr _ _ => .isFalse nofun
  | .wrap _ _, .capturedOther _ _ => .isFalse nofun
  | .concurrent _, .base _ => .isFalse nofun
  | .concurrent _, .wrap _ _ => .isFalse nofun
  | .concurrent _, .nonComparable _ => .isFalse nofun
  | .concurrent _, .capturedErr _ _ => .isFalse nofun
  | .concurrent _, .capturedOther _ _ => .isFalse nofun
  | .nonComparable _, .base _ => .isFalse nofun
  | .nonComparable _, .wrap _ _ => .isFalse nofun
  | .nonComparable _, .concurrent _ => .isFalse nofun
  | .nonComparable _, .capturedErr _ _ => .isFalse nofun
  | .nonComparable _, .capturedOther _ _ => .isFalse nofun
  | .capturedErr _ _, .base _ => .isFalse nofun
  | .capturedErr _ _, .wrap _ _ => .isFalse nofun
  | .capturedErr _ _, .concurrent _ => .isFalse nofun
  | .capturedErr _ _, .nonComparable _ => .isFalse nofun
  | .capturedErr _ _, .capturedOther _ _ => .isFalse nofun
  | .capturedOther _ _, .base _ => .isFalse nofun
  | .capturedOther _ _, .wrap _ _ => .isFalse nofun
  | .capturedOther _ _, .concurrent _ => .isFalse nofun
  | .capturedOther _ _, .nonComparable _ => .isFalse nofun
  | .capturedOther _ _, .capturedErr _ _ => .isFalse nofun

/-- Decidable equality on lists of `GoErr`. -/
def decEqGoErrList : (es fs : List GoErr) → Decidable (es = fs)
  | [], [] => .isTrue rfl
  | [], _ :: _ => .isFalse nofun
  | _ :: _, [] => .isFalse nofun
  | a :: es, b :: fs =>
    match decEqGoErr a b, decEqGoErrList es fs with
    | .isTrue h1, .isTrue h2 => .isTrue (by rw [h1, h2])
    | .isFalse h1, _ => .isFalse fun hh => h1 (by cases hh; rfl)
    | _, .isFalse h2 => .isFalse fun hh => h2 (by cases hh; rfl)
end

instance : DecidableEq GoErr := decEqGoErr

/-- `reflect.TypeOf(e).Comparable()` on the dynamic type of `e`: pointer
types (`base`, `wrap`) are comparable; the struct types holding slices
(`ConcurrentErrors`, `capturedPanic`) and the modelled non-comparable user
type are not. -/
def comparable : GoErr → Bool
  | .base _ => true
  | .wrap _ _ => true
  | .concurrent _ => false
  | .nonComparable _ => false
  | .capturedErr _ _ => false
  | .capturedOther _ _ => false

/-- `e` is a `ConcurrentErrors` value (the Go type assertion
`e.(ConcurrentErrors)` succeeds). -/
def isConc : GoErr → Bool
  | .concurrent _ => true
  | _ => false

/-- The member sequence an error contributes when merged: the inner loop of
`AddConcurrentError` splices in `cerrs.Errors` if the value is a
`ConcurrentErrors`, and otherwise contributes the value as a single
element. -/
def members : GoErr → List GoErr
  | .concurrent es => es
  | e => [e]

/-- `AddConcurrentError(to, err)` from gock.go: `nil` is `none`.  If `err` is
nil, return `to`; else if `to` is nil, return `err`; else if `to`'s dynamic
type is comparable and `to == err`, return `to`; otherwise return a
`ConcurrentErrors` holding the spliced member sequences of `to` then `err`. -/
def AddConcurrentError (to' err : Option GoErr) : Option GoErr :=
  match err, to' with
  | none, _ => to'
  | some e, none => some e
  | some e, some t =>
    if comparable t = true ∧ t = e then some t
    else some (.concurrent (members t ++ members e))

mutual
/-- The leaf (non-aggregate) errors reachable through nested
`ConcurrentErrors` members. -/
def leaves : GoErr → List GoErr
  | .concurrent es => leavesList es
  | .base i => [.base i]
  | .wrap i inner => [.wrap i inner]
  | .nonComparable i => [.nonComparable i]
  | .capturedErr e s => [.capturedErr e s]
  | .capturedOther i s => [.capturedOther i s]

/-- `leaves` mapped over a member list. -/
def leavesList : List GoErr → List GoErr
  | [] => []
  | e :: es => leaves e ++ leavesList es
end

/-- Leaves of a possibly-nil error. -/
def leavesO : Option GoErr → List GoErr
  | none => []
  | some e => leaves e

/-- A flat error: if it is a `ConcurrentErrors`, none of its direct members
is itself a `ConcurrentErrors`. -/
def flatB : GoErr → Bool
  | .concurrent es => es.all fun m => !isConc m
  | _ => true

/-- Flatness of a possibly-nil error. -/
def flatO : Option GoErr → Bool
  | none => true
  | some e => flatB e

/-- A plain possibly-nil error: absent or not an aggregate. -/
def plainOpt : Option GoErr → Bool
  | none => true
  | some e => !isConc e

/-- The unwrap chain of an error: the error itself followed by the chain of
what its `Unwrap` method returns.  On the comparable errors (`base`, `wrap`)
this is exactly the chain `errors.Is`/`errors.Unwrap` walk. -/
def chainOf : GoErr → List GoErr
  | .wrap i inner => .wrap i inner :: chainOf inner
  | e => [e]

/-- An error whose whole unwrap chain consists of comparable values:
it is built from `wrap` around a final `base`. -/
def plain : GoErr → Bool
  | .base _ => true
  | .wrap _ inner => plain inner
  | _ => false

/-- The package-level `unwrap` helper restricted to comparable dynamic
types (`base`, `wrap`), the only values `ConcurrentErrors.Unwrap` applies it
to: the dynamic type has an `Unwrap() error` method only in the `wrap`
case. -/
def unwrapPlain : GoErr → Option GoErr
  | .wrap _ inner => some inner
  | _ => none

/--
The loop of `ConcurrentErrors.Unwrap`.  `total` is `len(errs.Errors)`,
`counts` is the `timesFound` map, `queue` is the not-yet-visited part of the
growing `chain` slice (the loop walks `chain` front to back and appends at
the back, i.e. a queue).  Per iteration, for head `e`:
if `e`'s dynamic type is not comparable then splice in its members if it is
a `ConcurrentErrors` and otherwise give up with `nil`; else increment
`timesFound[e]`, return `e` if the count reached `total`, and otherwise
enqueue what `e` unwraps to, if anything.

`fuel` bounds the iteration count; `ConcurrentErrors.Unwrap` passes fuel that
is provably enough (every iteration strictly shrinks the total `sizeOf` of
the queue), so the `fuel = 0` fallback `none` is only reached with an empty
queue, where the loop returns `nil` anyway.
-/
def unwrapLoop : Nat → Nat → (GoErr → Nat) → List GoErr → Option GoErr
  | 0, _, _, _ => none
  | _ + 1, _, _, [] => none
  | fuel + 1, total, counts, e :: rest =>
    if comparable e then
      let c := counts e + 1
      if c = total then some e
      else
        let counts' : GoErr → Nat := fun x => if x = e then c else counts x
        match unwrapPlain e with
        | some next => unwrapLoop fuel total counts' (rest ++ [next])
        | none => unwrapLoop fuel total counts' rest
    else
      match e with
      | .concurrent es => unwrapLoop fuel total counts (rest ++ es)
      | _ => none

mutual
/-- Structural size of an error term (used only as a fuel bound for the
worklist loop). -/
def gsize : GoErr → Nat
  | .base _ => 1
  | .wrap _ inner => 1 + gsize inner
  | .concurrent es => 1 + gsizeList es
  | .nonComparable _ => 1
  | .capturedErr e _ => 1 + gsize e
  | .capturedOther _ _ => 1

/-- Total structural size of a list of error terms. -/
def gsizeList : List GoErr → Nat
  | [] => 0
  | e :: es => gsize e + gsizeList es
end

/-- Total size of a queue; strictly decreases at every `unwrapLoop`
iteration, so it is a sufficient fuel. -/
def queueFuel (queue : List GoErr) : Nat := (queue.map gsize).sum

/-- `ConcurrentErrors.Unwrap`: the common ancestor among the error chains of
all the members, if it exists. -/
def ConcurrentErrors.Unwrap (Errors : List GoErr) : Option GoErr :=
  unwrapLoop (queueFuel Errors) Errors.length (fun _ => 0) Errors

/-- `capturedPanic.Unwrap`: the recovered value if it was an error, else
nil.  (Only the `capturedErr`/`capturedOther` constructors model
`capturedPanic` values; on other constructors this is unused.) -/
def capturedPanic.Unwrap : GoErr → Option GoErr
  | .capturedErr inner _ => some inner
  | _ => none

/-- The package-level `unwrap` helper (equally, `errors.Unwrap`): calls the
`Unwrap() error` method of the dynamic type if there is one, else returns
nil.  `wrap` returns its wrapped error, `ConcurrentErrors` its common
ancestor, `capturedPanic` its recovered value if that was an error. -/
def unwrap : GoErr → Option GoErr
  | .wrap i inner => unwrapPlain (.wrap i inner)
  | .concurrent es => ConcurrentErrors.Unwrap es
  | .capturedErr inner s => capturedPanic.Unwrap (.capturedErr inner s)
  | .capturedOther i s => capturedPanic.Unwrap (.capturedOther i s)
  | _ => none

/--
`errors.Is(e, target)` of the Go standard library (an external collaborator
the package only invokes): repeatedly, report success if `target`'s dynamic
type is comparable and `e == target`, or if `e`'s dynamic type has an
`Is(error) bool` method that accepts `target` (in this package only
`ConcurrentErrors` has one: it requires `errors.Is(m, target)` for all
members); otherwise step to `errors.Unwrap(e)` if non-nil, else fail.

`fuel` bounds the recursion depth; all theorems quantify over it.
-/
def errorsIs : Nat → GoErr → GoErr → Bool
  | 0, _, _ => false
  | fuel + 1, e, target =>
    (comparable target && decide (e = target))
    || (match e with
        | .concurrent es => es.all fun m => errorsIs fuel m target
        | _ => false)
    || (match unwrap e with
        | some next => errorsIs fuel next target
        | none => false)

/-- `ConcurrentErrors.Is`: true if `errors.Is(cerr, err)` holds for every
member `cerr` of the aggregate. -/
def ConcurrentErrors.Is (fuel : Nat) (Errors : List GoErr) (err : GoErr) : Bool :=
  Errors.all fun cerr => errorsIs fuel cerr err

/-- `AnyIs(err, target)`: if `err` is not a `ConcurrentErrors`, apply
`errors.Is` to it directly; otherwise report whether some member satisfies
`errors.Is(member, target)`. -/
def AnyIs (fuel : Nat) (err : Option GoErr) (target : GoErr) : Bool :=
  match err with
  | some (.concurrent es) => es.any fun m => errorsIs fuel m target
  | some e => errorsIs fuel e target
  | none => false

/--
`errors.As(e, target)` of the Go standard library, with the check "`e`'s
dynamic type is assignable to the type `target` points to (or `e` has an
`As` method that accepts `target`)" abstracted as the predicate `asMatch`:
walk the unwrap chain of `e`, reporting success on the first element
satisfying `asMatch`.
-/
def errorsAs (asMatch : GoErr → Bool) : Nat → GoErr → Bool
  | 0, _ => false
  | fuel + 1, e =>
    asMatch e
    || (match unwrap e with
        | some next => errorsAs asMatch fuel next
        | none => false)

/-- `AnyAs(err, target)`: if `err` is not a `ConcurrentErrors`, run
`errors.As` on it directly; otherwise run `errors.As` on the members until
one matches. -/
def AnyAs (asMatch : GoErr → Bool) (fuel : Nat) (err : Option GoErr) : Bool :=
  match err with
  | some (.concurrent es) => es.any fun m => errorsAs asMatch fuel m
  | some e => errorsAs asMatch fuel e
  | none => false

/-! ## The task bundle (`Bundle` in gock.go)

`Bundle` returns two closures `g` and `wait` sharing a mutex `mtx`, an
`int64` counter `callCount`, a flag `waited`, the accumulated `waitErr`, and
two unbuffered channels `errs` and `panics`.  We model a bundle run as a
small-step transition relation: every critical section protected by `mtx`
is one atomic step, goroutines evaluating their function and channel
rendezvous are separate steps.  Because the channels are unbuffered, a
goroutine whose function has finished blocks on its send until a `wait`
caller that has "acknowledged" a completion (decremented `callCount`)
receives from one of the channels in its `select`.
-/

/-- The recovered value of a panic: either an error or some other value. -/
inductive PanicVal : Type where
  | errVal (e : GoErr)
  | nonErr (id : Nat)
deriving DecidableEq, Repr

/-- The `capturedPanic{p, stack}` value built by the deferred recover
handler wrapping every task: it carries the recovered value and the
`debug.Stack()` snapshot taken in the panicking goroutine. -/
def capturedOf : PanicVal → Nat → GoErr
  | .errVal e, s => .capturedErr e s
  | .nonErr i, s => .capturedOther i s

/-- How a task's function terminates: by returning a (possibly nil) error,
or by panicking with a value (the stack snapshot its recover handler will
capture is recorded alongside). -/
inductive Outcome : Type where
  | ret (r : Option GoErr)
  | panics (v : PanicVal) (stack : Nat)
deriving DecidableEq, Repr

/-- The lifecycle of one registered task's goroutine: `running` (spawned,
its function not yet finished), `done` (function finished, blocked sending
its outcome on the channel), `delivered` (outcome received by a `wait`
caller). -/
inductive TaskSt : Type where
  | running (o : Outcome)
  | done (o : Outcome)
  | delivered (o : Outcome)
deriving DecidableEq, Repr

/-- Where one `wait` call stands: `looping` (about to lock and run the check
at the top of the loop), `committed` (decremented `callCount`, blocked in
the `select`), `returned r` (returned normally with result `r`), `panicked
cp` (re-raising the received `capturedPanic` value `cp`). -/
inductive WaiterPC : Type where
  | looping
  | committed
  | returned (r : Option GoErr)
  | panicked (cp : GoErr)
deriving DecidableEq, Repr

/-- One `wait` call: the number of tasks registered when the call began,
and its current position. -/
structure Waiter : Type where
  regsAtStart : Nat
  pc : WaiterPC
deriving DecidableEq, Repr

/-- The shared state of one bundle: the `waited` flag, whether `mtx` is
currently locked (held), the `callCount` counter, the accumulated `waitErr`,
the registered tasks, and the `wait` calls made so far (in call order). -/
structure BState : Type where
  waited : Bool
  lockHeld : Bool
  callCount : Nat
  waitErr : Option GoErr
  tasks : List TaskSt
  waiters : List Waiter
deriving DecidableEq, Repr

/-- The state `Bundle()` returns in. -/
def initB : BState :=
  { waited := false, lockHeld := false, callCount := 0,
    waitErr := none, tasks := [], waiters := [] }

/-- Outcome of running the body of `g` (its whole critical section:
`g` locks `mtx`, and its deferred unlock releases it even on panic). -/
inductive GResult : Type where
  | registered (st' : BState)
  | contractPanic (msg : String)

/-- The body of `g(f)`: with `mtx` held, panic with the contract-violation
message if `waited` is already set; otherwise increment `callCount` and
spawn the goroutine running `f` (outcome `o`). -/
def gCall (st : BState) (o : Outcome) : GResult :=
  if st.waited then .contractPanic "gock: bundle already finished"
  else .registered { st with
    callCount := st.callCount + 1,
    tasks := st.tasks ++ [.running o] }

/--
One atomic step of a bundle run.

* `register`: a successful `g(f)` call (requires the mutex to be free, `g`
  acquires and releases it).
* `taskDone`: a spawned goroutine finishes evaluating its function and is
  now blocked sending the outcome.
* `waitStart`: a new `wait` call begins (it records how many tasks are
  registered at that point; no lock is needed to call `wait`).
* `checkWaited`: a looping waiter locks `mtx`, sees `waited`, and returns
  the cached `waitErr` — without ever unlocking `mtx` (this mirrors the
  code: that branch has no `mtx.Unlock()`).
* `checkZero`: a looping waiter locks, sees `callCount == 0`, sets
  `waited`, unlocks and returns `waitErr`.
* `checkDec`: a looping waiter locks, sees `callCount != 0`, decrements it,
  unlocks, and commits to receiving one completion.
* `recvErr`: a committed waiter receives a returned outcome from the `errs`
  channel, folds it into `waitErr` with `AddConcurrentError`, and loops.
* `recvPanic`: a committed waiter receives a `capturedPanic` from the
  `panics` channel and re-raises it (`panic(p)`).
-/
inductive Step : BState → BState → Prop where
  | register (st : BState) (o : Outcome) (st' : BState) :
      st.lockHeld = false → gCall st o = .registered st' → Step st st'
  | taskDone (st : BState) (j : Nat) (o : Outcome) :
      st.tasks[j]? = some (.running o) →
      Step st { st with tasks := st.tasks.set j (.done o) }
  | waitStart (st : BState) :
      Step st { st with waiters := st.waiters ++ [⟨st.tasks.length, .looping⟩] }
  | checkWaited (st : BState) (i : Nat) (w : Waiter) :
      st.lockHeld = false → st.waiters[i]? = some w → w.pc = .looping →
      st.waited = true →
      Step st { st with lockHeld := true,
                        waiters := st.waiters.set i { w with pc := .returned st.waitErr } }
  | checkZero (st : BState) (i : Nat) (w : Waiter) :
      st.lockHeld = false → st.waiters[i]? = some w → w.pc = .looping →
      st.waited = false → st.callCount = 0 →
      Step st { st with waited := true,
                        waiters := st.waiters.set i { w with pc := .returned st.waitErr } }
  | checkDec (st : BState) (i : Nat) (w : Waiter) :
      st.lockHeld = false → st.waiters[i]? = some w → w.pc = .looping →
      st.waited = false → st.callCount ≠ 0 →
      Step st { st with callCount := st.callCount - 1,
                        waiters := st.waiters.set i { w with pc := .committed } }
  | recvErr (st : BState) (i : Nat) (w : Waiter) (j : Nat) (r : Option GoErr) :
      st.waiters[i]? = some w → w.pc = .committed →
      st.tasks[j]? = some (.done (.ret r)) →
      Step st { st with waitErr := AddConcurrentError st.waitErr r,
                        tasks := st.tasks.set j (.delivered (.ret r)),
                        waiters := st.waiters.set i { w with pc := .looping } }
  | recvPanic (st : BState) (i : Nat) (w : Waiter) (j : Nat) (v : PanicVal) (s : Nat) :
      st.waiters[i]? = some w → w.pc = .committed →
      st.tasks[j]? = some (.done (.panics v s)) →
      Step st { st with tasks := st.tasks.set j (.delivered (.panics v s)),
                        waiters := st.waiters.set i { w with pc := .panicked (capturedOf v s) } }

/-- Zero or more steps. -/
def Reaches : BState → BState → Prop := Relation.ReflTransGen Step

/-- A state of some run of a freshly created bundle. -/
def ReachableB (st : BState) : Prop := Reaches initB st

/-! ## Lemmas about merging -/

/-- Members contributed by a flat error are never aggregates. -/
lemma members_not_conc {t : GoErr} (h : flatB t = true) :
    ∀ m ∈ members t, isConc m = false := by
  cases t <;> simp_all [members, flatB, isConc, List.all_eq_true]

/-- Merging preserves flatness. -/
lemma flatO_add {a b : Option GoErr} (ha : flatO a = true) (hb : flatO b = true) :
    flatO (AddConcurrentError a b) = true := by
  match b, a with
  | none, _ => exact ha
  | some e, none => exact hb
  | some e, some t =>
    show flatO (if comparable t = true ∧ t = e then some t
      else some (.concurrent (members t ++ members e))) = true
    split
    · exact ha
    · simp only [flatO, flatB, List.all_append, Bool.and_eq_true, List.all_eq_true]
      refine ⟨fun m hm => ?_, fun m hm => ?_⟩
      · simp [members_not_conc ha m hm]
      · simp [members_not_conc hb m hm]

/-- `leavesList` distributes over append. -/
lemma leavesList_append (xs ys : List GoErr) :
    leavesList (xs ++ ys) = leavesList xs ++ leavesList ys := by
  induction xs with
  | nil => simp [leavesList]
  | cons x xs ih => simp [leavesList, ih]

/-- The leaves of the members an error contributes are its own leaves. -/
lemma leavesList_members (t : GoErr) : leavesList (members t) = leaves t := by
  cases t <;> simp [members, leaves, leavesList]

/-- The leaves of a merge are the union of the leaves of the inputs. -/
lemma mem_leavesO_add (a b : Option GoErr) (v : GoErr) :
    v ∈ leavesO (AddConcurrentError a b) ↔ v ∈ leavesO a ∨ v ∈ leavesO b := by
  match b, a with
  | none, _ => simp [AddConcurrentError, leavesO]
  | some e, none => simp [AddConcurrentError, leavesO]
  | some e, some t =>
    show v ∈ leavesO (if comparable t = true ∧ t = e then some t
      else some (.concurrent (members t ++ members e))) ↔ _
    split
    · rename_i h
      rw [h.2]
      simp [leavesO]
    · simp only [leavesO, leaves, leavesList_append, List.mem_append, leavesList_members]

/-- Two possibly-nil errors with the same set of leaf members. -/
def LeafEq (a b : Option GoErr) : Prop :=
  ∀ v, v ∈ leavesO a ↔ v ∈ leavesO b

/-- Leaves of a fold of merges: the union of the leaves of the accumulator
and of all the list entries. -/
lemma mem_leavesO_foldl (l : List (Option GoErr)) (acc : Option GoErr) (v : GoErr) :
    v ∈ leavesO (l.foldl AddConcurrentError acc) ↔
      v ∈ leavesO acc ∨ ∃ x ∈ l, v ∈ leavesO x := by
  induction l generalizing acc with
  | nil => simp
  | cons x l ih =>
    simp only [List.foldl_cons, ih, mem_leavesO_add, List.mem_cons]
    constructor
    · rintro ((h | h) | ⟨y, hy, hv⟩)
      · exact .inl h
      · exact .inr ⟨x, .inl rfl, h⟩
      · exact .inr ⟨y, .inr hy, hv⟩
    · rintro (h | ⟨y, hy | hy, hv⟩)
      · exact .inl (.inl h)
      · exact .inl (.inr (hy ▸ hv))
      · exact .inr ⟨y, hy, hv⟩

/-! ## Claims about `AddConcurrentError` -/

/-- C1: `AddConcurrentError(accumulated, incoming)` returns `accumulated`
when `incoming` is absent; `incoming` when `accumulated` is absent; the
single shared value when the two are comparable and equal; and otherwise a
`ConcurrentErrors` whose member sequence is the spliced members of
`accumulated` followed by the spliced members of `incoming`. -/
theorem addConcurrentError_cases :
    (∀ a : Option GoErr, AddConcurrentError a none = a) ∧
    (∀ e : GoErr, AddConcurrentError none (some e) = some e) ∧
    (∀ t e : GoErr, comparable t = true → t = e →
      AddConcurrentError (some t) (some e) = some t) ∧
    (∀ t e : GoErr, ¬(comparable t = true ∧ t = e) →
      AddConcurrentError (some t) (some e)
        = some (.concurrent (members t ++ members e))) := by
  refine ⟨fun a => rfl, fun e => rfl, ?_, ?_⟩
  · intro t e hc he
    show (if comparable t = true ∧ t = e then some t else _) = some t
    rw [if_pos ⟨hc, he⟩]
  · intro t e h
    show (if comparable t = true ∧ t = e then some t else _) = _
    rw [if_neg h]

/-- Witness for C1: the four branches evaluated at concrete errors. -/
theorem addConcurrentError_cases_witness :
    AddConcurrentError (some (.base 0)) none = some (.base 0) ∧
    AddConcurrentError none (some (.base 1)) = some (.base 1) ∧
    AddConcurrentError (some (.base 2)) (some (.base 2)) = some (.base 2) ∧
    AddConcurrentError (some (.base 0)) (some (.concurrent [.base 1, .base 2]))
      = some (.concurrent [.base 0, .base 1, .base 2]) :=
  ⟨addConcurrentError_cases.1 _, addConcurrentError_cases.2.1 _,
   addConcurrentError_cases.2.2.1 _ _ (by decide) rfl,
   addConcurrentError_cases.2.2.2 _ _ (by decide)⟩

/-- Plain possibly-nil errors are flat. -/
lemma plainOpt_flatO {x : Option GoErr} (hx : plainOpt x = true) : flatO x = true := by
  match x with
  | none => rfl
  | some e => cases e <;> simp_all [plainOpt, isConc, flatO, flatB]

/-- Folding plain errors from a flat accumulator stays flat. -/
lemma flatO_foldl (l : List (Option GoErr)) (acc : Option GoErr)
    (hl : ∀ x ∈ l, plainOpt x = true) (hacc : flatO acc = true) :
    flatO (l.foldl AddConcurrentError acc) = true := by
  induction l generalizing acc with
  | nil => exact hacc
  | cons x l ih =>
    simp only [List.foldl_cons]
    exact ih _ (fun y hy => hl y (List.mem_cons_of_mem _ hy))
      (flatO_add hacc (plainOpt_flatO (hl x (List.mem_cons_self _ _))))

/-- C5: merging flat inputs yields a flat result, so an aggregate produced
by `AddConcurrentError` from flat inputs never has an aggregate among its
`Errors`, and folding plain (non-aggregate) errors always yields a flat
result. -/
theorem addConcurrentError_flat :
    (∀ a b : Option GoErr, flatO a = true → flatO b = true →
      flatO (AddConcurrentError a b) = true ∧
      ∀ es, AddConcurrentError a b = some (.concurrent es) →
        ∀ m ∈ es, isConc m = false) ∧
    (∀ l : List (Option GoErr), (∀ x ∈ l, plainOpt x = true) →
      flatO (l.foldl AddConcurrentError none) = true) := by
  constructor
  · intro a b ha hb
    refine ⟨flatO_add ha hb, fun es heq m hm => ?_⟩
    have h := flatO_add ha hb
    rw [heq] at h
    simp only [flatO, flatB, List.all_eq_true] at h
    simpa using h m hm
  · intro l hl
    exact flatO_foldl l none hl rfl

/-- Witness for C5: concrete flat inputs merged to a flat aggregate, and a
concrete fold of plain errors. -/
theorem addConcurrentError_flat_witness :
    flatO (AddConcurrentError (some (.concurrent [.base 0, .base 1])) (some (.base 2))) = true ∧
    flatO ([some (.base 0), some (.base 1), some (.base 0)].foldl
      AddConcurrentError none) = true :=
  ⟨(addConcurrentError_flat.1 _ _ (by decide) (by decide)).1,
   addConcurrentError_flat.2 _ (by decide)⟩

/-- C4: with respect to the set of leaf members, `AddConcurrentError` is
associative and commutative, and folding any permutation of a list of
outcomes yields the same leaf-member set. -/
theorem addConcurrentError_assoc_comm :
    (∀ a b c : Option GoErr,
      LeafEq (AddConcurrentError (AddConcurrentError a b) c)
             (AddConcurrentError a (AddConcurrentError b c))) ∧
    (∀ a b : Option GoErr, LeafEq (AddConcurrentError a b) (AddConcurrentError b a)) ∧
    (∀ l₁ l₂ : List (Option GoErr), l₁.Perm l₂ →
      LeafEq (l₁.foldl AddConcurrentError none) (l₂.foldl AddConcurrentError none)) := by
  refine ⟨fun a b c v => ?_, fun a b v => ?_, fun l₁ l₂ hp v => ?_⟩
  · simp only [mem_leavesO_add, or_assoc]
  · simp only [mem_leavesO_add]
    exact Or.comm
  · simp only [mem_leavesO_foldl]
    constructor
    · rintro (h | ⟨x, hx, hv⟩)
      · exact .inl h
      · exact .inr ⟨x, hp.mem_iff.mp hx, hv⟩
    · rintro (h | ⟨x, hx, hv⟩)
      · exact .inl h
      · exact .inr ⟨x, hp.mem_iff.mpr hx, hv⟩

/-- Witness for C4: the permutation clause applied to two concrete fold
orders of three outcomes. -/
theorem addConcurrentError_assoc_comm_witness :
    LeafEq ([some (.base 0), some (.base 1), some (.base 2)].foldl AddConcurrentError none)
           ([some (.base 2), some (.base 0), some (.base 1)].foldl AddConcurrentError none) :=
  addConcurrentError_assoc_comm.2.2 _ _ (by decide)

/-! ## Claims about the membership tests -/

/-- `errors.Is` lifted to a possibly-nil error (on nil it fails: nothing
equals a non-nil target and nil unwraps to nothing). -/
def errorsIsO (fuel : Nat) : Option GoErr → GoErr → Bool
  | none, _ => false
  | some e, target => errorsIs fuel e target

/-- `errors.As` lifted to a possibly-nil error. -/
def errorsAsO (asMatch : GoErr → Bool) (fuel : Nat) : Option GoErr → Bool
  | none => false
  | some e => errorsAs asMatch fuel e

/-- C9: `AnyIs(e, target)` succeeds exactly when `e` is a
`ConcurrentErrors` one of whose members satisfies `errors.Is(·, target)`,
or `e` is not a `ConcurrentErrors` and satisfies `errors.Is(e, target)`
itself; and `AnyAs` behaves the same way with `errors.As`. -/
theorem anyIs_anyAs_exists :
    ∀ (fuel : Nat) (e : Option GoErr) (target : GoErr) (asMatch : GoErr → Bool),
    (AnyIs fuel e target = true ↔
      ((∃ es, e = some (.concurrent es) ∧ ∃ m ∈ es, errorsIs fuel m target = true) ∨
       ((∀ es, e ≠ some (.concurrent es)) ∧ errorsIsO fuel e target = true))) ∧
    (AnyAs asMatch fuel e = true ↔
      ((∃ es, e = some (.concurrent es) ∧ ∃ m ∈ es, errorsAs asMatch fuel m = true) ∨
       ((∀ es, e ≠ some (.concurrent es)) ∧ errorsAsO asMatch fuel e = true))) := by
  intro fuel e target asMatch
  match e with
  | none => simp [AnyIs, AnyAs, errorsIsO, errorsAsO]
  | some (.concurrent es) => simp [AnyIs, AnyAs, List.any_eq_true]
  | some (.base i) => simp [AnyIs, AnyAs, errorsIsO, errorsAsO]
  | some (.wrap i a) => simp [AnyIs, AnyAs, errorsIsO, errorsAsO]
  | some (.nonComparable i) => simp [AnyIs, AnyAs, errorsIsO, errorsAsO]
  | some (.capturedErr a s) => simp [AnyIs, AnyAs, errorsIsO, errorsAsO]
  | some (.capturedOther i s) => simp [AnyIs, AnyAs, errorsIsO, errorsAsO]

/-- C10: the `Is` method of `ConcurrentErrors` is universally quantified
over members — it succeeds exactly when `errors.Is(member, err)` holds for
every member, and in particular vacuously on an empty member list. -/
theorem concurrentErrorsIs_forall :
    ∀ (fuel : Nat) (es : List GoErr) (err : GoErr),
    (ConcurrentErrors.Is fuel es err = true ↔ ∀ m ∈ es, errorsIs fuel m err = true) ∧
    ConcurrentErrors.Is fuel [] err = true := by
  intro fuel es err
  exact ⟨by simp [ConcurrentErrors.Is, List.all_eq_true], by simp [ConcurrentErrors.Is]⟩

/-! ## The common-ancestor search (`ConcurrentErrors.Unwrap`) -/

/-- How many entries of the worklist have `v` on their unwrap chain: each
such entry will contribute exactly one future increment of `timesFound[v]`
(chains of plain errors have no duplicates). -/
def futureCnt (v : GoErr) (queue : List GoErr) : Nat :=
  queue.countP fun e => decide (v ∈ chainOf e)

lemma futureCnt_nil (v : GoErr) : futureCnt v [] = 0 := rfl

lemma futureCnt_cons (v e : GoErr) (rest : List GoErr) :
    futureCnt v (e :: rest)
      = (if v ∈ chainOf e then 1 else 0) + futureCnt v rest := by
  simp only [futureCnt, List.countP_cons]
  by_cases h : v ∈ chainOf e <;> simp [h, Nat.add_comm]

lemma futureCnt_append (v : GoErr) (xs ys : List GoErr) :
    futureCnt v (xs ++ ys) = futureCnt v xs + futureCnt v ys := by
  simp [futureCnt, List.countP_append]

/-- Every error is on its own unwrap chain. -/
lemma mem_chainOf_self (e : GoErr) : e ∈ chainOf e := by
  cases e <;> simp [chainOf]

/-- Chain elements never grow in size. -/
lemma gsize_le_of_mem_chainOf : ∀ {m v : GoErr}, v ∈ chainOf m → gsize v ≤ gsize m
  | .wrap i inner, v, h => by
    rw [chainOf] at h
    rcases List.mem_cons.mp h with h | h
    · rw [h]
    · exact (gsize_le_of_mem_chainOf h).trans (by simp [gsize])
  | .base i, v, h => by simp_all [chainOf]
  | .concurrent es, v, h => by simp_all [chainOf]
  | .nonComparable i, v, h => by simp_all [chainOf]
  | .capturedErr a s, v, h => by simp_all [chainOf]
  | .capturedOther a s, v, h => by simp_all [chainOf]

/-- A wrapping error does not reappear on the chain of what it wraps. -/
lemma not_mem_chainOf_inner (i : Nat) (inner : GoErr) :
    GoErr.wrap i inner ∉ chainOf inner := by
  intro h
  have := gsize_le_of_mem_chainOf h
  simp [gsize] at this

lemma plain_comparable {e : GoErr} (h : plain e = true) : comparable e = true := by
  cases e <;> simp_all [plain, comparable]

/-- Structure of the chain of a plain error: itself, then the chain of what
it unwraps to. -/
lemma chainOf_plain (e : GoErr) (h : plain e = true) :
    chainOf e = e :: (match unwrapPlain e with
      | some next => chainOf next
      | none => []) := by
  cases e <;> simp_all [plain, chainOf, unwrapPlain]

lemma plain_unwrapPlain {e next : GoErr} (h : plain e = true)
    (hn : unwrapPlain e = some next) : plain next = true := by
  cases e <;> simp_all [plain, unwrapPlain]

lemma gsize_pos (e : GoErr) : 1 ≤ gsize e := by
  cases e <;> simp [gsize]

lemma queueFuel_nil : queueFuel [] = 0 := rfl

lemma queueFuel_cons (e : GoErr) (rest : List GoErr) :
    queueFuel (e :: rest) = gsize e + queueFuel rest := by
  simp [queueFuel]

lemma queueFuel_append (xs ys : List GoErr) :
    queueFuel (xs ++ ys) = queueFuel xs + queueFuel ys := by
  simp [queueFuel]

/-- What processing `e` appends to the worklist: the target of its
`Unwrap` method, if any. -/
def tailOf (e : GoErr) : List GoErr :=
  match unwrapPlain e with
  | some next => [next]
  | none => []

lemma plain_tailOf {e : GoErr} (he : plain e = true) :
    ∀ x ∈ tailOf e, plain x = true := by
  cases e <;> simp_all [tailOf, unwrapPlain, plain]

lemma queueFuel_tailOf {e : GoErr} (he : plain e = true) :
    queueFuel (tailOf e) + 1 ≤ gsize e := by
  cases e <;> simp_all [tailOf, unwrapPlain, plain, queueFuel, gsize]
  omega

/-- Processing a plain head preserves, for every value, the sum of its
recorded count and its future increments. -/
lemma counts_futureCnt_step (counts : GoErr → Nat) (e : GoErr) (rest : List GoErr)
    (he : plain e = true) (v : GoErr) :
    (fun x => if x = e then counts e + 1 else counts x) v
        + futureCnt v (rest ++ tailOf e)
      = counts v + futureCnt v (e :: rest) := by
  by_cases hv : v = e
  · rw [hv]
    cases e with
    | base i =>
      simp [tailOf, unwrapPlain, futureCnt_cons, futureCnt_append, mem_chainOf_self]
      omega
    | wrap i inner =>
      simp only [tailOf, unwrapPlain, futureCnt_append, futureCnt_cons, futureCnt_nil]
      rw [if_pos trivial, if_pos (mem_chainOf_self _), if_neg (not_mem_chainOf_inner i inner)]
      omega
    | concurrent es => simp [plain] at he
    | nonComparable i => simp [plain] at he
    | capturedErr a s => simp [plain] at he
    | capturedOther a s => simp [plain] at he
  · cases e with
    | base i =>
      have : v ∉ chainOf (.base i) := by simp [chainOf, hv]
      simp [tailOf, unwrapPlain, futureCnt_cons, hv, this]
    | wrap i inner =>
      simp only [tailOf, unwrapPlain, futureCnt_append, futureCnt_cons, futureCnt_nil, if_neg hv]
      have : (v ∈ chainOf (.wrap i inner)) ↔ v ∈ chainOf inner := by
        simp [chainOf, List.mem_cons, hv]
      rw [if_congr this rfl rfl]
      omega
    | concurrent es => simp [plain] at he
    | nonComparable i => simp [plain] at he
    | capturedErr a s => simp [plain] at he
    | capturedOther a s => simp [plain] at he

/-- One iteration of the loop on a plain (comparable, only-`wrap`-and-`base`)
head: bump the count, return on reaching `total`, else recurse with the
unwrap target enqueued. -/
lemma unwrapLoop_cons_plain (fuel total : Nat) (counts : GoErr → Nat)
    (e : GoErr) (rest : List GoErr) (he : plain e = true) :
    unwrapLoop (fuel + 1) total counts (e :: rest) =
      if counts e + 1 = total then some e
      else unwrapLoop fuel total (fun x => if x = e then counts e + 1 else counts x)
        (rest ++ tailOf e) := by
  cases e with
  | base i => simp [unwrapLoop, unwrapPlain, comparable, tailOf]
  | wrap i inner => simp [unwrapLoop, unwrapPlain, comparable, tailOf]
  | concurrent es => simp [plain] at he
  | nonComparable i => simp [plain] at he
  | capturedErr a s => simp [plain] at he
  | capturedOther a s => simp [plain] at he

/-- Soundness of the loop on plain worklists: a returned value has, adding
its recorded count and its pending occurrences, at least `total`
observations available. -/
lemma unwrapLoop_sound :
    ∀ (fuel total : Nat) (counts : GoErr → Nat) (queue : List GoErr) (w : GoErr),
    (∀ e ∈ queue, plain e = true) →
    unwrapLoop fuel total counts queue = some w →
    total ≤ counts w + futureCnt w queue := by
  intro fuel
  induction fuel with
  | zero =>
    intro total counts queue w _ h
    simp [unwrapLoop] at h
  | succ fuel ih =>
    intro total counts queue w hq h
    match queue with
    | [] => simp [unwrapLoop] at h
    | e :: rest =>
      have he : plain e = true := hq e (List.mem_cons_self _ _)
      rw [unwrapLoop_cons_plain fuel total counts e rest he] at h
      by_cases htot : counts e + 1 = total
      · rw [if_pos htot] at h
        cases h
        rw [futureCnt_cons, if_pos (mem_chainOf_self w)]
        omega
      · rw [if_neg htot] at h
        have hq' : ∀ x ∈ rest ++ tailOf e, plain x = true := by
          intro x hx
          rcases List.mem_append.mp hx with hx | hx
          · exact hq x (List.mem_cons_of_mem _ hx)
          · exact plain_tailOf he x hx
        have := ih total _ _ w hq' h
        rw [counts_futureCnt_step counts e rest he w] at this
        exact this

/-- Completeness of the loop on plain worklists: with enough fuel, if the
loop comes back empty, then no value with pending occurrences could ever
have reached `total` observations. -/
lemma unwrapLoop_complete :
    ∀ (fuel total : Nat) (counts : GoErr → Nat) (queue : List GoErr),
    (∀ e ∈ queue, plain e = true) →
    queueFuel queue ≤ fuel →
    unwrapLoop fuel total counts queue = none →
    ∀ v, 1 ≤ futureCnt v queue → counts v + futureCnt v queue ≠ total := by
  intro fuel
  induction fuel with
  | zero =>
    intro total counts queue hq hfuel _ v hv
    match queue with
    | [] => simp [futureCnt_nil] at hv
    | e :: rest =>
      rw [queueFuel_cons] at hfuel
      have := gsize_pos e
      omega
  | succ fuel ih =>
    intro total counts queue hq hfuel h v hv
    match queue with
    | [] => simp [futureCnt_nil] at hv
    | e :: rest =>
      have he : plain e = true := hq e (List.mem_cons_self _ _)
      rw [unwrapLoop_cons_plain fuel total counts e rest he] at h
      by_cases htot : counts e + 1 = total
      · rw [if_pos htot] at h
        cases h
      · rw [if_neg htot] at h
        have hq' : ∀ x ∈ rest ++ tailOf e, plain x = true := by
          intro x hx
          rcases List.mem_append.mp hx with hx | hx
          · exact hq x (List.mem_cons_of_mem _ hx)
          · exact plain_tailOf he x hx
        have hfuel' : queueFuel (rest ++ tailOf e) ≤ fuel := by
          rw [queueFuel_append]
          rw [queueFuel_cons] at hfuel
          have := queueFuel_tailOf he
          omega
        have hstep := counts_futureCnt_step counts e rest he v
        simp only at hstep
        by_cases hfut : 1 ≤ futureCnt v (rest ++ tailOf e)
        · have := ih total _ _ hq' hfuel' h v hfut
          omega
        · -- No pending occurrence of `v` is left, yet there was one in
          -- `e :: rest`: the only counted occurrence was `e` itself.
          have hz : futureCnt v (rest ++ tailOf e) = 0 := by omega
          rw [futureCnt_append] at hz
          have hrest : futureCnt v rest = 0 := by omega
          have htail : futureCnt v (tailOf e) = 0 := by omega
          have hve : v = e := by
            by_contra hne
            rw [futureCnt_cons, hrest] at hv
            have hmem : v ∈ chainOf e := by
              by_contra hmm
              rw [if_neg hmm] at hv
              omega
            rw [chainOf_plain e he] at hmem
            rcases List.mem_cons.mp hmem with hmm | hmm
            · exact hne hmm
            · match hnext : unwrapPlain e with
              | some next =>
                rw [hnext] at hmm
                have : futureCnt v (tailOf e) = 1 := by
                  rw [tailOf, hnext, futureCnt_cons, if_pos hmm, futureCnt_nil]
                omega
              | none =>
                rw [hnext] at hmm
                simp at hmm
          rw [hve]
          rw [futureCnt_cons, if_pos (mem_chainOf_self e)]
          have : futureCnt e rest = 0 := hve ▸ hrest
          rw [this]
          omega

/-- Pending occurrences in the members list count the members whose chain
passes through `v`. -/
lemma futureCnt_eq_length_iff (v : GoErr) (es : List GoErr) :
    futureCnt v es = es.length ↔ ∀ m ∈ es, v ∈ chainOf m := by
  constructor
  · intro h m hm
    have := List.countP_eq_length.mp h m hm
    simpa using this
  · intro h
    exact List.countP_eq_length.mpr fun m hm => by simpa using h m hm

/-- C2 (amended): for a `ConcurrentErrors` with a nonempty member list
whose members all have finite, comparable unwrap chains, `Unwrap` is sound
and complete for shared chain values: whatever it returns lies on every
member's chain; if some value is shared by every member's chain it returns
such a value; and if no value is shared it returns nil. -/
theorem concurrentErrorsUnwrap_commonAncestor :
    ∀ es : List GoErr, es ≠ [] → (∀ m ∈ es, plain m = true) →
    (∀ w, ConcurrentErrors.Unwrap es = some w → ∀ m ∈ es, w ∈ chainOf m) ∧
    ((∃ V, ∀ m ∈ es, V ∈ chainOf m) → ∃ w, ConcurrentErrors.Unwrap es = some w) ∧
    ((¬ ∃ V, ∀ m ∈ es, V ∈ chainOf m) → ConcurrentErrors.Unwrap es = none) := by
  intro es hne hplain
  have sound : ∀ w, ConcurrentErrors.Unwrap es = some w → ∀ m ∈ es, w ∈ chainOf m := by
    intro w hw
    rw [ConcurrentErrors.Unwrap] at hw
    have h := unwrapLoop_sound (queueFuel es) es.length (fun _ => 0) es w hplain hw
    simp only at h
    have hle : futureCnt w es ≤ es.length := List.countP_le_length _
    have : futureCnt w es = es.length := by omega
    exact (futureCnt_eq_length_iff w es).mp this
  refine ⟨sound, ?_, ?_⟩
  · rintro ⟨V, hV⟩
    rcases hres : ConcurrentErrors.Unwrap es with _ | w
    · exfalso
      rw [ConcurrentErrors.Unwrap] at hres
      have hlen : futureCnt V es = es.length := (futureCnt_eq_length_iff V es).mpr hV
      have hpos : 0 < es.length := List.length_pos.mpr hne
      have := unwrapLoop_complete (queueFuel es) es.length (fun _ => 0) es hplain
        le_rfl hres V (by omega)
      simp only at this
      omega
    · exact ⟨w, rfl⟩
  · intro hno
    rcases hres : ConcurrentErrors.Unwrap es with _ | w
    · rfl
    · exact absurd ⟨w, sound w hres⟩ hno

/-- C2 counterexample to the claim as stated: for the (degenerate, but
well-typed) empty aggregate, every member's chain vacuously passes through
the value `base 0`, yet `Unwrap` does not return it — it returns nil. -/
theorem concurrentErrorsUnwrap_vacuous_counterexample :
    (∀ m ∈ ([] : List GoErr), plain m = true) ∧
    (∀ m ∈ ([] : List GoErr), GoErr.base 0 ∈ chainOf m) ∧
    ConcurrentErrors.Unwrap ([] : List GoErr) ≠ some (.base 0) ∧
    ConcurrentErrors.Unwrap ([] : List GoErr) = none := by
  refine ⟨by simp, by simp, by decide, by decide⟩

/-- Witness for the amended C2 at a concrete aggregate with a shared
ancestor. -/
theorem concurrentErrorsUnwrap_commonAncestor_witness :
    ([GoErr.wrap 1 (.base 0), GoErr.wrap 2 (.base 0)] ≠ ([] : List GoErr)) ∧
    (∀ m ∈ [GoErr.wrap 1 (.base 0), GoErr.wrap 2 (.base 0)], plain m = true) ∧
    ∃ w, ConcurrentErrors.Unwrap [GoErr.wrap 1 (.base 0), GoErr.wrap 2 (.base 0)]
      = some w :=
  ⟨by decide, by decide,
   (concurrentErrorsUnwrap_commonAncestor _ (by decide) (by decide)).2.1
     ⟨.base 0, by decide⟩⟩

/-! ## Generic list bookkeeping for the transition proofs -/

/-- An element other than the one being replaced stays in the list. -/
lemma mem_set_of_ne {α : Type} {l : List α} {j : Nat} {a b : α} (c : α)
    (ha : a ∈ l) (hj : l[j]? = some b) (hne : a ≠ b) : a ∈ l.set j c := by
  obtain ⟨k, hk, hak⟩ := List.mem_iff_getElem.mp ha
  have hkj : j ≠ k := by
    rintro rfl
    rw [List.getElem?_eq_getElem hk] at hj
    exact hne (by rw [← hak]; exact Option.some.inj hj)
  refine List.mem_iff_getElem.mpr ⟨k, by simpa using hk, ?_⟩
  rw [List.getElem_set_ne hkj]
  exact hak

/-- The replacement element is in the updated list. -/
lemma mem_set_self_of_getElem? {α : Type} {l : List α} {j : Nat} {b : α}
    (hj : l[j]? = some b) (c : α) : c ∈ l.set j c :=
  List.mem_set l j (List.getElem?_eq_some.mp hj).1 c

/-- Replacing an element by one with the same predicate value keeps the
predicate count. -/
lemma countP_set_same {α : Type} (p : α → Bool) :
    ∀ (l : List α) (j : Nat) {w w' : α},
    l[j]? = some w → p w = p w' → (l.set j w').countP p = l.countP p
  | [], j, w, w', hj, _ => by simp at hj
  | a :: l, 0, w, w', hj, hp => by
    simp only [List.getElem?_cons_zero, Option.some.injEq] at hj
    subst hj
    simp [List.countP_cons, hp]
  | a :: l, j + 1, w, w', hj, hp => by
    simp only [List.getElem?_cons_succ] at hj
    simp [List.countP_cons, countP_set_same p l j hj hp]

/-! ## Invariants of the bundle transition system -/

/-- Steps never release the mutex once the `waited`-branch return has left
it locked: no transition unlocks. -/
lemma step_lockHeld {st st' : BState} (h : Step st st') (hl : st.lockHeld = true) :
    st'.lockHeld = true := by
  cases h with
  | register o st' hfree hreg => rw [hfree] at hl; cases hl
  | taskDone j o hj => exact hl
  | waitStart => exact hl
  | checkWaited i w hfree hw hpc hwd => rfl
  | checkZero i w hfree hw hpc hwd hc => rw [hfree] at hl; cases hl
  | checkDec i w hfree hw hpc hwd hc => rw [hfree] at hl; cases hl
  | recvErr i w j r hw hpc hj => exact hl
  | recvPanic i w j v s hw hpc hj => exact hl

/-- The mutex stays locked along every run continuing from a state that
leaked it. -/
lemma reaches_lockHeld {st st' : BState} (h : Reaches st st')
    (hl : st.lockHeld = true) : st'.lockHeld = true := by
  induction h with
  | refl => exact hl
  | tail _ hstep ih => exact step_lockHeld hstep ih

/-- While the mutex is leaked, a waiter at the top of its loop can never
move: every transition that would advance it needs to lock the mutex. -/
lemma step_looping_frozen {st st' : BState} (h : Step st st')
    (hl : st.lockHeld = true) {i : Nat} {w : Waiter}
    (hw : st.waiters[i]? = some w) (hpc : w.pc = .looping) :
    st'.waiters[i]? = some w := by
  cases h with
  | register o st' hfree hreg => rw [hfree] at hl; cases hl
  | taskDone j o hj => exact hw
  | waitStart =>
    show (st.waiters ++ _)[i]? = some w
    rw [List.getElem?_append_left (List.getElem?_eq_some.mp hw).1]
    exact hw
  | checkWaited i' w' hfree hw' hpc' hwd => rw [hfree] at hl; cases hl
  | checkZero i' w' hfree hw' hpc' hwd hc => rw [hfree] at hl; cases hl
  | checkDec i' w' hfree hw' hpc' hwd hc => rw [hfree] at hl; cases hl
  | recvErr i' w' j r hw' hpc' hj =>
    show (st.waiters.set i' _)[i]? = some w
    have hne : i' ≠ i := by
      rintro rfl
      rw [hw'] at hw
      cases hw
      rw [hpc] at hpc'
      cases hpc'
    rw [List.getElem?_set_ne hne]
    exact hw
  | recvPanic i' w' j v s hw' hpc' hj =>
    show (st.waiters.set i' _)[i]? = some w
    have hne : i' ≠ i := by
      rintro rfl
      rw [hw'] at hw
      cases hw
      rw [hpc] at hpc'
      cases hpc'
    rw [List.getElem?_set_ne hne]
    exact hw

/-- Multi-step version of `step_looping_frozen`, with the lock leak. -/
lemma reaches_looping_frozen {st st' : BState} (h : Reaches st st')
    (hl : st.lockHeld = true) {i : Nat} {w : Waiter}
    (hw : st.waiters[i]? = some w) (hpc : w.pc = .looping) :
    st'.waiters[i]? = some w ∧ st'.lockHeld = true := by
  induction h with
  | refl => exact ⟨hw, hl⟩
  | tail _ hstep ih =>
    exact ⟨step_looping_frozen hstep ih.2 ih.1 hpc, step_lockHeld hstep ih.2⟩

/-- The state produced by a successful `g` call. -/
lemma gCall_registered {st : BState} {o : Outcome} {st' : BState}
    (h : gCall st o = .registered st') :
    st' = { st with callCount := st.callCount + 1,
                    tasks := st.tasks ++ [.running o] } ∧ st.waited = false := by
  by_cases hw : st.waited = true
  · rw [gCall, if_pos hw] at h
    cases h
  · rw [gCall, if_neg hw] at h
    cases h
    exact ⟨rfl, by simpa using hw⟩

/-- Data-flow invariant: (a) a waiter re-raising a panic always re-raises a
`capturedPanic` built from the recovered value and stack of a task that
panicked and whose completion was consumed; (b) every leaf of the
accumulated `waitErr` comes from the returned error of a task whose normal
completion was consumed. -/
def PanicInv (st : BState) : Prop :=
  (∀ w ∈ st.waiters, ∀ cp, w.pc = .panicked cp →
    ∃ t ∈ st.tasks, ∃ v s, t = .delivered (.panics v s) ∧ cp = capturedOf v s) ∧
  (∀ x ∈ leavesO st.waitErr,
    ∃ t ∈ st.tasks, ∃ r, t = .delivered (.ret r) ∧ x ∈ leavesO r)

lemma panicInv_init : PanicInv initB := by
  constructor
  · intro w hw
    simp [initB] at hw
  · intro x hx
    simp [initB, leavesO] at hx

lemma panicInv_step {st st' : BState} (h : Step st st') (inv : PanicInv st) :
    PanicInv st' := by
  obtain ⟨inv1, inv2⟩ := inv
  cases h with
  | register o st' hfree hreg =>
    obtain ⟨hshape, hwd⟩ := gCall_registered hreg
    subst hshape
    constructor
    · intro w hw cp hpc
      obtain ⟨t, htm, v, s, ht, hcp⟩ := inv1 w hw cp hpc
      exact ⟨t, List.mem_append_left _ htm, v, s, ht, hcp⟩
    · intro x hx
      obtain ⟨t, htm, r, ht, hxr⟩ := inv2 x hx
      exact ⟨t, List.mem_append_left _ htm, r, ht, hxr⟩
  | taskDone j o hj =>
    constructor
    · intro w hw cp hpc
      obtain ⟨t, htm, v, s, ht, hcp⟩ := inv1 w hw cp hpc
      refine ⟨t, mem_set_of_ne _ htm hj ?_, v, s, ht, hcp⟩
      rw [ht]
      exact fun hh => nomatch hh
    · intro x hx
      obtain ⟨t, htm, r, ht, hxr⟩ := inv2 x hx
      refine ⟨t, mem_set_of_ne _ htm hj ?_, r, ht, hxr⟩
      rw [ht]
      exact fun hh => nomatch hh
  | waitStart =>
    constructor
    · intro w hw cp hpc
      rcases List.mem_append.mp hw with hw | hw
      · exact inv1 w hw cp hpc
      · simp only [List.mem_singleton] at hw
        rw [hw] at hpc
        cases hpc
    · exact inv2
  | checkWaited i w' hfree hw' hpc' hwd =>
    constructor
    · intro w hw cp hpc
      rcases List.mem_or_eq_of_mem_set hw with hw | hw
      · exact inv1 w hw cp hpc
      · rw [hw] at hpc
        cases hpc
    · exact inv2
  | checkZero i w' hfree hw' hpc' hwd hc =>
    constructor
    · intro w hw cp hpc
      rcases List.mem_or_eq_of_mem_set hw with hw | hw
      · exact inv1 w hw cp hpc
      · rw [hw] at hpc
        cases hpc
    · exact inv2
  | checkDec i w' hfree hw' hpc' hwd hc =>
    constructor
    · intro w hw cp hpc
      rcases List.mem_or_eq_of_mem_set hw with hw | hw
      · exact inv1 w hw cp hpc
      · rw [hw] at hpc
        cases hpc
    · exact inv2
  | recvErr i w' j r hw' hpc' hj =>
    constructor
    · intro w hw cp hpc
      rcases List.mem_or_eq_of_mem_set hw with hw | hw
      · obtain ⟨t, htm, v, s, ht, hcp⟩ := inv1 w hw cp hpc
        refine ⟨t, mem_set_of_ne _ htm hj ?_, v, s, ht, hcp⟩
        rw [ht]
        exact fun hh => nomatch hh
      · rw [hw] at hpc
        cases hpc
    · intro x hx
      rcases (mem_leavesO_add st.waitErr r x).mp hx with hx | hx
      · obtain ⟨t, htm, r', ht, hxr⟩ := inv2 x hx
        refine ⟨t, mem_set_of_ne _ htm hj ?_, r', ht, hxr⟩
        rw [ht]
        exact fun hh => nomatch hh
      · exact ⟨.delivered (.ret r), mem_set_self_of_getElem? hj _, r, rfl, hx⟩
  | recvPanic i w' j v s hw' hpc' hj =>
    constructor
    · intro w hw cp hpc
      rcases List.mem_or_eq_of_mem_set hw with hw | hw
      · obtain ⟨t, htm, v', s', ht, hcp⟩ := inv1 w hw cp hpc
        refine ⟨t, mem_set_of_ne _ htm hj ?_, v', s', ht, hcp⟩
        rw [ht]
        exact fun hh => nomatch hh
      · rw [hw] at hpc
        cases hpc
        exact ⟨.delivered (.panics v s), mem_set_self_of_getElem? hj _, v, s, rfl, rfl⟩
    · intro x hx
      obtain ⟨t, htm, r', ht, hxr⟩ := inv2 x hx
      refine ⟨t, mem_set_of_ne _ htm hj ?_, r', ht, hxr⟩
      rw [ht]
      exact fun hh => nomatch hh

lemma panicInv_reachable {st : BState} (h : ReachableB st) : PanicInv st := by
  induction h with
  | refl => exact panicInv_init
  | tail _ hstep ih => exact panicInv_step hstep ih

/-- The waiter is blocked in its `select` waiting for a completion. -/
def isCommittedW (w : Waiter) : Bool :=
  match w.pc with
  | .committed => true
  | _ => false

/-- The waiter has returned normally. -/
def isReturnedW (w : Waiter) : Bool :=
  match w.pc with
  | .returned _ => true
  | _ => false

/-- The task's completion has been consumed by a waiter. -/
def isDeliveredT (t : TaskSt) : Bool :=
  match t with
  | .delivered _ => true
  | _ => false

/-- Replacing one element shifts a predicate count by the difference of the
predicate on the old and new element. -/
lemma countP_set_eq {α : Type} (p : α → Bool) :
    ∀ (l : List α) (j : Nat) (w w' : α), l[j]? = some w →
    (l.set j w').countP p + (if p w then 1 else 0)
      = l.countP p + (if p w' then 1 else 0)
  | [], j, w, w', hj => by simp at hj
  | a :: l, 0, w, w', hj => by
    simp only [List.getElem?_cons_zero, Option.some.injEq] at hj
    subst hj
    simp only [List.set_cons_zero, List.countP_cons]
    omega
  | a :: l, j + 1, w, w', hj => by
    simp only [List.getElem?_cons_succ] at hj
    have ih := countP_set_eq p l j w w' hj
    simp only [List.set_cons_succ, List.countP_cons]
    omega

/-- Replacing a non-satisfying element by a satisfying one increments the
count. -/
lemma countP_set_incr {α : Type} (p : α → Bool) (l : List α) (j : Nat)
    (w w' : α) (hj : l[j]? = some w) (hw : p w = false) (hw' : p w' = true) :
    (l.set j w').countP p = l.countP p + 1 := by
  have := countP_set_eq p l j w w' hj
  rw [hw, hw'] at this
  simp at this
  omega

/-- Replacing a satisfying element by a non-satisfying one decrements the
count. -/
lemma countP_set_decr {α : Type} (p : α → Bool) (l : List α) (j : Nat)
    (w w' : α) (hj : l[j]? = some w) (hw : p w = true) (hw' : p w' = false) :
    (l.set j w').countP p + 1 = l.countP p := by
  have := countP_set_eq p l j w w' hj
  rw [hw, hw'] at this
  simp at this
  omega

/-- Counting invariant of a bundle run: `callCount` plus the number of
waiters blocked in their `select` plus the number of consumed completions
equals the number of registered tasks; the `waited` flag is set only with
`callCount` zero; and a waiter can only have returned after `waited` was
set. -/
def CountInv (st : BState) : Prop :=
  st.callCount + st.waiters.countP isCommittedW + st.tasks.countP isDeliveredT
      = st.tasks.length ∧
  (st.waited = true → st.callCount = 0) ∧
  (∀ w ∈ st.waiters, isReturnedW w = true → st.waited = true)

lemma countInv_init : CountInv initB := by
  refine ⟨rfl, fun _ => rfl, ?_⟩
  intro w hw
  simp [initB] at hw

lemma countInv_step {st st' : BState} (h : Step st st') (inv : CountInv st) :
    CountInv st' := by
  obtain ⟨hcnt, hwz, hret⟩ := inv
  cases h with
  | register o st' hfree hreg =>
    obtain ⟨hshape, hwd⟩ := gCall_registered hreg
    subst hshape
    refine ⟨?_, ?_, ?_⟩
    · simp [List.countP_append, List.countP_cons, isDeliveredT]
      omega
    · intro h
      simp only at h
      rw [hwd] at h
      cases h
    · intro w hw hr
      have := hret w hw hr
      rw [hwd] at this
      cases this
  | taskDone j o hj =>
    refine ⟨?_, hwz, hret⟩
    dsimp only
    rw [List.length_set, countP_set_same isDeliveredT st.tasks j hj
      (show isDeliveredT (.running o) = isDeliveredT (.done o) from rfl)]
    exact hcnt
  | waitStart =>
    refine ⟨?_, hwz, ?_⟩
    · simp [List.countP_append, List.countP_cons, isCommittedW]
      omega
    · intro w hw hr
      rcases List.mem_append.mp hw with hw | hw
      · exact hret w hw hr
      · simp only [List.mem_singleton] at hw
        rw [hw] at hr
        simp [isReturnedW] at hr
  | checkWaited i w' hfree hw' hpc' hwd =>
    refine ⟨?_, fun _ => hwz hwd, fun w hw hr => hwd⟩
    dsimp only
    rw [countP_set_same isCommittedW st.waiters i hw' (by simp [isCommittedW, hpc'])]
    exact hcnt
  | checkZero i w' hfree hw' hpc' hwd hc =>
    refine ⟨?_, fun _ => hc, fun w hw hr => rfl⟩
    dsimp only
    rw [countP_set_same isCommittedW st.waiters i hw' (by simp [isCommittedW, hpc'])]
    exact hcnt
  | checkDec i w' hfree hw' hpc' hwd hc =>
    refine ⟨?_, ?_, ?_⟩
    · dsimp only
      rw [countP_set_incr isCommittedW st.waiters i w' { w' with pc := .committed }
        hw' (by simp [isCommittedW, hpc']) (by simp [isCommittedW])]
      omega
    · intro h
      simp only at h
      rw [hwd] at h
      cases h
    · intro w hw hr
      rcases List.mem_or_eq_of_mem_set hw with hw | hw
      · have := hret w hw hr
        rw [hwd] at this
        cases this
      · rw [hw] at hr
        simp [isReturnedW] at hr
  | recvErr i w' j r hw' hpc' hj =>
    refine ⟨?_, hwz, ?_⟩
    · have h1 := countP_set_decr isCommittedW st.waiters i w'
        { w' with pc := .looping } hw' (by simp [isCommittedW, hpc'])
        (by simp [isCommittedW])
      have h2 := countP_set_incr isDeliveredT st.tasks j
        (.done (.ret r)) (.delivered (.ret r)) hj rfl rfl
      dsimp only
      simp only [List.length_set]
      omega
    · intro w hw hr
      rcases List.mem_or_eq_of_mem_set hw with hw | hw
      · exact hret w hw hr
      · rw [hw] at hr
        simp [isReturnedW] at hr
  | recvPanic i w' j v s hw' hpc' hj =>
    refine ⟨?_, hwz, ?_⟩
    · have h1 := countP_set_decr isCommittedW st.waiters i w'
        { w' with pc := .panicked (capturedOf v s) } hw'
        (by simp [isCommittedW, hpc']) (by simp [isCommittedW])
      have h2 := countP_set_incr isDeliveredT st.tasks j
        (.done (.panics v s)) (.delivered (.panics v s)) hj rfl rfl
      dsimp only
      simp only [List.length_set]
      omega
    · intro w hw hr
      rcases List.mem_or_eq_of_mem_set hw with hw | hw
      · exact hret w hw hr
      · rw [hw] at hr
        simp [isReturnedW] at hr


lemma countInv_reachable {st : BState} (h : ReachableB st) : CountInv st := by
  induction h with
  | refl => exact countInv_init
  | tail _ hstep ih => exact countInv_step hstep ih

/-- With a single `wait` caller, the guarantee does hold: once that caller
has returned normally, every registered task's completion has been
consumed, so every task has finished. -/
lemma singleWaiter_guarantee {st : BState} (h : ReachableB st) (w : Waiter)
    (r : Option GoErr) (hw : st.waiters = [w]) (hr : w.pc = .returned r) :
    ∀ t ∈ st.tasks, ∃ o, t = .delivered o := by
  obtain ⟨hcnt, hwz, hret⟩ := countInv_reachable h
  have hwd : st.waited = true := by
    refine hret w ?_ ?_
    · rw [hw]
      exact List.mem_singleton_self w
    · simp [isReturnedW, hr]
  have hc0 : st.callCount = 0 := hwz hwd
  have hcm : st.waiters.countP isCommittedW = 0 := by
    rw [hw]
    simp [List.countP_cons, isCommittedW, hr]
  have hall : st.tasks.countP isDeliveredT = st.tasks.length := by omega
  intro t ht
  have hdel := List.countP_eq_length.mp hall t ht
  match t, hdel with
  | .delivered o, _ => exact ⟨o, rfl⟩

/-! ## Concrete runs -/

/-- A task that will return the error `base 0`. -/
def c3Task : Outcome := .ret (some (.base 0))

/-- After `g(f)`: one running task. -/
def c3S1 : BState :=
  { waited := false, lockHeld := false, callCount := 1, waitErr := none,
    tasks := [.running c3Task], waiters := [] }

/-- A first `wait` call begins. -/
def c3S2 : BState := { c3S1 with waiters := [⟨1, .looping⟩] }

/-- A second, concurrent `wait` call begins. -/
def c3S3 : BState := { c3S1 with waiters := [⟨1, .looping⟩, ⟨1, .looping⟩] }

/-- The second caller acknowledges the task (`callCount--`) and blocks in
its `select`. -/
def c3S4 : BState :=
  { waited := false, lockHeld := false, callCount := 0, waitErr := none,
    tasks := [.running c3Task], waiters := [⟨1, .looping⟩, ⟨1, .committed⟩] }

/-- The first caller now sees `callCount == 0`, sets `waited` and returns
`nil` — while the task is still running. -/
def c3State : BState :=
  { waited := true, lockHeld := false, callCount := 0, waitErr := none,
    tasks := [.running c3Task], waiters := [⟨1, .returned none⟩, ⟨1, .committed⟩] }

lemma c3_reach : ReachableB c3State := by
  have s1 : Step initB c3S1 := Step.register initB c3Task c3S1 rfl rfl
  have s2 : Step c3S1 c3S2 := Step.waitStart c3S1
  have s3 : Step c3S2 c3S3 := Step.waitStart c3S2
  have s4 : Step c3S3 c3S4 :=
    Step.checkDec c3S3 1 ⟨1, .looping⟩ rfl rfl rfl rfl (by decide)
  have s5 : Step c3S4 c3State :=
    Step.checkZero c3S4 0 ⟨1, .looping⟩ rfl rfl rfl rfl rfl
  exact .head s1 (.head s2 (.head s3 (.head s4 (.head s5 .refl))))

/-- C3 refuted on the code: a reachable run of a bundle in which the first
`wait` call (one task was registered before it began, recorded in its
`regsAtStart`) has returned normally with `nil`, while that registered task
is still running.  The schedule: two concurrent `wait` callers; the second
decrements `callCount` to zero and blocks in its `select`; the first then
observes `callCount == 0`, sets `waited`, and returns before any completion
was consumed.  By contrast (last conjunct), with a single `wait` call the
claimed guarantee does hold: when that call has returned normally, every
registered task's completion has been consumed. -/
theorem bundleWait_earlyReturn_counterexample :
    (ReachableB c3State ∧
      c3State.waiters[0]? = some ⟨1, .returned none⟩ ∧
      c3State.tasks[0]? = some (.running (.ret (some (.base 0))))) ∧
    (∀ (st : BState) (w : Waiter) (r : Option GoErr), ReachableB st →
      st.waiters = [w] → w.pc = .returned r →
      ∀ t ∈ st.tasks, ∃ o, t = .delivered o) :=
  ⟨⟨c3_reach, rfl, rfl⟩,
   fun st w r h hw hr => singleWaiter_guarantee h w r hw hr⟩

/-- One `wait` call on a fresh bundle begins. -/
def w1State : BState := { initB with waiters := [⟨0, .looping⟩] }

/-- The first `wait` call sees `callCount == 0`, sets `waited`, unlocks and
returns. -/
def w2State : BState :=
  { waited := true, lockHeld := false, callCount := 0, waitErr := none,
    tasks := [], waiters := [⟨0, .returned none⟩] }

/-- A second `wait` call begins. -/
def w3State : BState :=
  { w2State with waiters := [⟨0, .returned none⟩, ⟨0, .looping⟩] }

/-- The second `wait` call sees `waited` and returns the cached result —
through the branch that never unlocks the mutex. -/
def twoWaitsState : BState :=
  { waited := true, lockHeld := true, callCount := 0, waitErr := none,
    tasks := [], waiters := [⟨0, .returned none⟩, ⟨0, .returned none⟩] }

/-- A third `wait` call begins; its first loop iteration needs the mutex,
which is locked forever. -/
def thirdWaitState : BState :=
  { twoWaitsState with
    waiters := [⟨0, .returned none⟩, ⟨0, .returned none⟩, ⟨0, .looping⟩] }

lemma twoWaits_reach : ReachableB twoWaitsState := by
  have s1 : Step initB w1State := Step.waitStart initB
  have s2 : Step w1State w2State :=
    Step.checkZero w1State 0 ⟨0, .looping⟩ rfl rfl rfl rfl rfl
  have s3 : Step w2State w3State := Step.waitStart w2State
  have s4 : Step w3State twoWaitsState :=
    Step.checkWaited w3State 1 ⟨0, .looping⟩ rfl rfl rfl rfl
  exact .head s1 (.head s2 (.head s3 (.head s4 .refl)))

lemma thirdWait_reach : ReachableB thirdWaitState :=
  .tail twoWaits_reach (Step.waitStart twoWaitsState)

/-- C7 refuted on the code: after the first `wait` call returned, a second
call does return the cached `nil` result, but through the branch that
returns while still holding the mutex; a third call is then blocked at the
top of its loop forever — in every continuation of the run, the mutex stays
locked and the third call never advances (so it never returns at all),
contradicting the claim (and the code's own doc comment) that every
subsequent call returns the cached result without blocking and leaves the
bundle's state unchanged. -/
theorem bundleWait_thirdCallBlocks_counterexample :
    ReachableB thirdWaitState ∧
    thirdWaitState.waiters[0]? = some ⟨0, .returned none⟩ ∧
    thirdWaitState.waiters[1]? = some ⟨0, .returned none⟩ ∧
    thirdWaitState.lockHeld = true ∧
    (∀ st', Reaches thirdWaitState st' →
      st'.waiters[2]? = some ⟨0, .looping⟩ ∧ st'.lockHeld = true) :=
  ⟨thirdWait_reach, rfl, rfl, rfl,
   fun st' h => reaches_looping_frozen h rfl rfl rfl⟩

/-- C8 on the code: the body of `g` panics with exactly the message
`"gock: bundle already finished"` when the join barrier has completed
(`waited` set), and otherwise registers the task without panicking — but
reaching that body requires locking the mutex, and after a second `wait`
call the mutex is locked forever, so a `g` call after that blocks instead
of panicking. -/
theorem bundleG_afterWait_contract :
    (∀ (st : BState) (o : Outcome), st.waited = true →
      gCall st o = .contractPanic "gock: bundle already finished") ∧
    (∀ (st : BState) (o : Outcome), st.waited = false →
      gCall st o = .registered { st with callCount := st.callCount + 1,
                                         tasks := st.tasks ++ [.running o] }) ∧
    ReachableB twoWaitsState ∧ twoWaitsState.waited = true ∧
    (∀ st', Reaches twoWaitsState st' → st'.lockHeld = true) := by
  refine ⟨?_, ?_, twoWaits_reach, rfl, ?_⟩
  · intro st o h
    rw [gCall, if_pos h]
  · intro st o h
    rw [gCall, if_neg (by simp [h])]
  · intro st' h
    exact reaches_lockHeld h rfl

/-- C6: in every reachable bundle state, (a) a `wait` caller that is
re-raising holds a `capturedPanic` carrying exactly the recovered value and
the stack captured in the panicking task's goroutine, and such a task is
among the consumed completions (never a normally-returned one); (b) the
accumulated error folds only leaves coming from normally-returned task
errors, never panic outcomes; and (c) `capturedPanic.Unwrap` returns the
recovered value when it is an error and nil otherwise. -/
theorem bundlePanic_repanic :
    ∀ st : BState, ReachableB st →
    (∀ w ∈ st.waiters, ∀ cp, w.pc = .panicked cp →
      ∃ t ∈ st.tasks, ∃ v s, t = .delivered (.panics v s) ∧ cp = capturedOf v s) ∧
    (∀ x ∈ leavesO st.waitErr,
      ∃ t ∈ st.tasks, ∃ r, t = .delivered (.ret r) ∧ x ∈ leavesO r) ∧
    (∀ (e : GoErr) (s : Nat),
      capturedPanic.Unwrap (capturedOf (.errVal e) s) = some e) ∧
    (∀ (i s : Nat), capturedPanic.Unwrap (capturedOf (.nonErr i) s) = none) := by
  intro st hst
  obtain ⟨h1, h2⟩ := panicInv_reachable hst
  exact ⟨h1, h2, fun e s => rfl, fun i s => rfl⟩

/-- A task that panics with the error `base 7`; its recover handler will
capture stack snapshot `3`. -/
def c6Task : Outcome := .panics (.errVal (.base 7)) 3

/-- After `g(f)`: one running task that will panic. -/
def c6S1 : BState :=
  { waited := false, lockHeld := false, callCount := 1, waitErr := none,
    tasks := [.running c6Task], waiters := [] }

/-- A `wait` call begins. -/
def c6S2 : BState := { c6S1 with waiters := [⟨1, .looping⟩] }

/-- The waiter acknowledges the task and blocks in its `select`. -/
def c6S3 : BState :=
  { waited := false, lockHeld := false, callCount := 0, waitErr := none,
    tasks := [.running c6Task], waiters := [⟨1, .committed⟩] }

/-- The task's function panics; its recover handler captures the value and
stack and blocks sending on the `panics` channel. -/
def c6S4 : BState := { c6S3 with tasks := [.done c6Task] }

/-- The waiter receives the `capturedPanic` and re-raises it. -/
def c6State : BState :=
  { waited := false, lockHeld := false, callCount := 0, waitErr := none,
    tasks := [.delivered c6Task],
    waiters := [⟨1, .panicked (.capturedErr (.base 7) 3)⟩] }

lemma c6_reach : ReachableB c6State := by
  have s1 : Step initB c6S1 := Step.register initB c6Task c6S1 rfl rfl
  have s2 : Step c6S1 c6S2 := Step.waitStart c6S1
  have s3 : Step c6S2 c6S3 :=
    Step.checkDec c6S2 0 ⟨1, .looping⟩ rfl rfl rfl rfl (by decide)
  have s4 : Step c6S3 c6S4 := Step.taskDone c6S3 0 c6Task rfl
  have s5 : Step c6S4 c6State :=
    Step.recvPanic c6S4 0 ⟨1, .committed⟩ 0 (.errVal (.base 7)) 3 rfl rfl rfl
  exact .head s1 (.head s2 (.head s3 (.head s4 (.head s5 .refl))))

/-- Witness for C6: the invariant applied to a concrete run in which the
one registered task panicked with the error `base 7` and stack `3`, and
the waiter is re-raising `capturedErr (base 7) 3`. -/
theorem bundlePanic_repanic_witness :
    ReachableB c6State ∧
    (∃ t ∈ c6State.tasks, ∃ v s, t = .delivered (.panics v s) ∧
      GoErr.capturedErr (.base 7) 3 = capturedOf v s) :=
  ⟨c6_reach,
   (bundlePanic_repanic c6State c6_reach).1
     ⟨1, .panicked (.capturedErr (.base 7) 3)⟩ (by decide)
     (.capturedErr (.base 7) 3) rfl⟩

